import Mathlib

/-!
Verification of the resource-table / actor-runtime / decoder-dispatch core of
a demo asset-loading program, shallowly embedded from its Rust source
(`src/system/resource.rs`, `src/entity.rs`, `src/entity/decoder.rs`,
`src/system.rs`).

Machine integers: the handle counter in the source is a `u32` incremented by
one per allocation; it is modelled as a `Nat` reduced modulo `2^32`
(`u32Mod`), matching two's-complement wrap-around semantics.  Hash maps are
modelled as functions into `Option`, hash sets as lists.
-/

namespace Demo

/-- Modulus of the `u32` handle counter. -/
def u32Mod : Nat := 4294967296

/-- Update a function-map at one key (Rust `HashMap::insert`). -/
def fupd {K V : Type} [DecidableEq K] (m : K → Option V) (k : K) (v : V) :
    K → Option V :=
  fun k' => if k' = k then some v else m k'

/-- Delete one key from a function-map (Rust `HashMap::remove`). -/
def fdel {K V : Type} [DecidableEq K] (m : K → Option V) (k : K) :
    K → Option V :=
  fun k' => if k' = k then none else m k'

/-- `Handle<T>` from `src/system/resource.rs`: an opaque `u32` id (the
phantom type parameter is erased; equality, ordering and hashing are all on
`id`, exactly as in the source). -/
structure Handle where
  id : Nat
deriving DecidableEq, Repr

/-- `DecodingMetadata` from `src/entity/decoder.rs`: a set of dependency
paths, modelled as a list of path strings. -/
structure DecodingMetadata where
  path_deps : List String

/-- `ResourceManager<T>` from `src/system/resource.rs`: the next-handle
counter (only the `u32` id of the stored `next_handle` field), the
`Handle -> T` resource map, the `String -> Handle` name index
(`translations`) and the path dependency index (`path_deps_mappings`). -/
structure ResourceManager (T : Type) where
  next_handle : Nat
  resources : Handle → Option T
  translations : String → Option Handle
  path_deps_mappings : String → Option Handle

namespace ResourceManager

variable {T : Type}

/-- `ResourceManager::new`. -/
def new : ResourceManager T :=
  { next_handle := 0
    resources := fun _ => none
    translations := fun _ => none
    path_deps_mappings := fun _ => none }

/-- `ResourceManager::ask`: pure lookup in the name index. -/
def ask (m : ResourceManager T) (name : String) : Option Handle :=
  m.translations name

/-- `ResourceManager::gen_handle`: mint the current counter value and
increment the `u32` counter (with wrap-around). -/
def gen_handle (m : ResourceManager T) : Handle × ResourceManager T :=
  (⟨m.next_handle⟩, { m with next_handle := (m.next_handle + 1) % u32Mod })

/-- `ResourceManager::wrap_replace`: overwrite the stored value at an
existing handle. -/
def wrap_replace (m : ResourceManager T) (h : Handle) (r : T) :
    ResourceManager T :=
  { m with resources := fupd m.resources h r }

/-- `ResourceManager::wrap_create`: mint a handle, store the value, bind the
name. -/
def wrap_create (m : ResourceManager T) (name : String) (r : T) :
    Handle × ResourceManager T :=
  let p := m.gen_handle
  (p.1, { p.2 with
            resources := fupd p.2.resources p.1 r
            translations := fupd p.2.translations name p.1 })

/-- `ResourceManager::register_decoding_metadata`: (re-)bind every declared
dependency path to the handle in the path index. -/
def register_decoding_metadata (m : ResourceManager T) (h : Handle)
    (dmd : DecodingMetadata) : ResourceManager T :=
  dmd.path_deps.foldl
    (fun m' p => { m' with path_deps_mappings := fupd m'.path_deps_mappings p h })
    m

/-- `ResourceManager::wrap`: replace in place under an already-bound name
(same handle), otherwise mint and bind; then merge optional metadata. -/
def wrap (m : ResourceManager T) (r : T) (name : String)
    (dmd : Option DecodingMetadata) : Handle × ResourceManager T :=
  let p :=
    match m.ask name with
    | some h => (h, m.wrap_replace h r)
    | none => m.wrap_create name r
  match dmd with
  | some d => (p.1, p.2.register_decoding_metadata p.1 d)
  | none => p

/-- `ResourceManager::reserve`: existing handle for a bound name, otherwise
mint and bind a handle with no value stored. -/
def reserve (m : ResourceManager T) (name : String) :
    Handle × ResourceManager T :=
  match m.ask name with
  | some h => (h, m)
  | none =>
    let p := m.gen_handle
    (p.1, { p.2 with translations := fupd p.2.translations name p.1 })

/-- `ResourceManager::get`. -/
def get (m : ResourceManager T) (h : Handle) : Option T :=
  m.resources h

/-- `ResourceManager::get_mut`, as observed through the mutation the caller
may perform through the returned reference: the stored value at `h`, when
present, is replaced by `f` of itself; no other field can be touched. -/
def get_mut_update (m : ResourceManager T) (h : Handle) (f : T → T) :
    ResourceManager T :=
  match m.resources h with
  | some r => { m with resources := fupd m.resources h (f r) }
  | none => m

/-- `ResourceManager::remove`: delete (and return) the stored value only. -/
def remove (m : ResourceManager T) (h : Handle) :
    Option T × ResourceManager T :=
  (m.resources h, { m with resources := fdel m.resources h })

/- Field-preservation facts about `register_decoding_metadata` (it folds
over the dependency paths touching only `path_deps_mappings`). -/

theorem register_translations (h : Handle) (dmd : DecodingMetadata)
    (m : ResourceManager T) :
    (m.register_decoding_metadata h dmd).translations = m.translations := by
  unfold register_decoding_metadata
  induction dmd.path_deps generalizing m with
  | nil => rfl
  | cons p ps ih => simp [List.foldl, ih]

theorem register_resources (h : Handle) (dmd : DecodingMetadata)
    (m : ResourceManager T) :
    (m.register_decoding_metadata h dmd).resources = m.resources := by
  unfold register_decoding_metadata
  induction dmd.path_deps generalizing m with
  | nil => rfl
  | cons p ps ih => simp [List.foldl, ih]

theorem register_next (h : Handle) (dmd : DecodingMetadata)
    (m : ResourceManager T) :
    (m.register_decoding_metadata h dmd).next_handle = m.next_handle := by
  unfold register_decoding_metadata
  induction dmd.path_deps generalizing m with
  | nil => rfl
  | cons p ps ih => simp [List.foldl, ih]

/-- After a `wrap`, the wrapped name is bound to the returned handle. -/
theorem wrap_binds (m : ResourceManager T) (r : T) (name : String)
    (dmd : Option DecodingMetadata) :
    (m.wrap r name dmd).2.translations name = some (m.wrap r name dmd).1 := by
  unfold wrap
  cases hask : m.ask name with
  | some h =>
    cases dmd with
    | some d => simp [register_translations, wrap_replace, ← hask, ask]
    | none => simp [wrap_replace, ← hask, ask]
  | none =>
    cases dmd with
    | some d => simp [register_translations, wrap_create, fupd]
    | none => simp [wrap_create, fupd]

/-- `wrap` under an already-bound name returns that handle, mints nothing and
replaces the stored value. -/
theorem wrap_of_ask_some (m : ResourceManager T) (r : T) (name : String)
    (dmd : Option DecodingMetadata) (h : Handle) (hask : m.ask name = some h) :
    (m.wrap r name dmd).1 = h ∧
      (m.wrap r name dmd).2.next_handle = m.next_handle ∧
      (m.wrap r name dmd).2.resources = fupd m.resources h r := by
  unfold wrap
  cases dmd with
  | some d =>
    simp [hask, register_next, register_resources, wrap_replace]
  | none =>
    simp [hask, wrap_replace]

end ResourceManager

/-- C1: re-`wrap`ping the same name twice returns the identical handle both
times, a `get` with that handle after the second `wrap` yields the second
value, and the second `wrap` mints no new handle (the counter is
untouched). -/
theorem wrap_twice_stable_identity {T : Type} (m : ResourceManager T)
    (r1 r2 : T) (name : String) (d1 d2 : Option DecodingMetadata) :
    (((m.wrap r1 name d1).2.wrap r2 name d2).1 = (m.wrap r1 name d1).1) ∧
      ((m.wrap r1 name d1).2.wrap r2 name d2).2.get (m.wrap r1 name d1).1
        = some r2 ∧
      (((m.wrap r1 name d1).2.wrap r2 name d2).2.next_handle
        = (m.wrap r1 name d1).2.next_handle) := by
  obtain ⟨h1, h2, h3⟩ :=
    ResourceManager.wrap_of_ask_some (m.wrap r1 name d1).2 r2 name d2
      (m.wrap r1 name d1).1 (ResourceManager.wrap_binds m r1 name d1)
  refine ⟨h1, ?_, h2⟩
  rw [ResourceManager.get, h3]
  simp [fupd]

/-! ## Operation sequences over one resource table

The public `ResourceManager` operations, as an operation language, so that
properties over "every sequence of operations" can be stated.  `remove` and
the lookups take an arbitrary handle (a superset of what a client could
actually hold); `get_mut` carries the in-place mutation the caller performs
through the returned reference. -/

inductive Op (T : Type) where
  | wrap (r : T) (name : String) (dmd : Option DecodingMetadata)
  | reserve (name : String)
  | get (h : Handle)
  | get_mut (h : Handle) (f : T → T)
  | remove (h : Handle)

namespace ResourceManager

variable {T : Type}

/-- Effect of one operation on the table. -/
def step (m : ResourceManager T) : Op T → ResourceManager T
  | .wrap r name dmd => (m.wrap r name dmd).2
  | .reserve name => (m.reserve name).2
  | .get _ => m
  | .get_mut h f => m.get_mut_update h f
  | .remove h => (m.remove h).2

/-- Handle ids freshly minted by one operation in state `m` (`wrap` and
`reserve` mint exactly when the name is unbound; nothing else mints). -/
def mintedBy (m : ResourceManager T) : Op T → List Nat
  | .wrap _ name _ =>
    match m.ask name with
    | some _ => []
    | none => [m.next_handle]
  | .reserve name =>
    match m.ask name with
    | some _ => []
    | none => [m.next_handle]
  | _ => []

/-- Run a sequence of operations. -/
def runOps (m : ResourceManager T) : List (Op T) → ResourceManager T
  | [] => m
  | o :: ops => (m.step o).runOps ops

/-- Handle ids minted along a run, in allocation order. -/
def mintedIds (m : ResourceManager T) : List (Op T) → List Nat
  | [] => []
  | o :: ops => m.mintedBy o ++ (m.step o).mintedIds ops

/-- Every handle stored in any of the three maps has id below `c`. -/
def BoundedBy (m : ResourceManager T) (c : Nat) : Prop :=
  (∀ n h, m.translations n = some h → h.id < c) ∧
    (∀ h r, m.resources h = some r → h.id < c) ∧
    (∀ p h, m.path_deps_mappings p = some h → h.id < c)

/-- The name index binds distinct names to distinct handles. -/
def TransInj (m : ResourceManager T) : Prop :=
  ∀ n1 n2 h, m.translations n1 = some h → m.translations n2 = some h → n1 = n2

theorem register_paths_cases (h : Handle) (dmd : DecodingMetadata)
    (m : ResourceManager T) (p : String) :
    (m.register_decoding_metadata h dmd).path_deps_mappings p
        = m.path_deps_mappings p ∨
      (m.register_decoding_metadata h dmd).path_deps_mappings p = some h := by
  unfold register_decoding_metadata
  induction dmd.path_deps generalizing m with
  | nil => exact Or.inl rfl
  | cons q qs ih =>
    rcases ih { m with path_deps_mappings := fupd m.path_deps_mappings q h } with
      h1 | h1
    · simp only [List.foldl] at h1 ⊢
      rw [h1]
      by_cases hpq : p = q
      · exact Or.inr (by simp [fupd, hpq])
      · exact Or.inl (by simp [fupd, hpq])
    · exact Or.inr (by simpa [List.foldl] using h1)

theorem fupd_some_cases {K V : Type} [DecidableEq K] (m : K → Option V)
    (k k' : K) (v : V) (v' : V) (h : Demo.fupd m k v k' = some v') :
    (k' = k ∧ v' = v) ∨ m k' = some v' := by
  unfold Demo.fupd at h
  by_cases e : k' = k
  · simp [e] at h
    exact Or.inl ⟨e, h.symm⟩
  · simp [e] at h
    exact Or.inr h

theorem fdel_some {K V : Type} [DecidableEq K] (m : K → Option V)
    (k k' : K) (v' : V) (h : Demo.fdel m k k' = some v') : m k' = some v' := by
  unfold Demo.fdel at h
  by_cases e : k' = k
  · simp [e] at h
  · simpa [e] using h

/-- Adding a fresh binding `name ↦ ⟨c⟩` above every stored id keeps the name
index injective. -/
theorem transInj_fupd_fresh (m : ResourceManager T) (c : Nat) (name : String)
    (hb : ∀ n h, m.translations n = some h → h.id < c) (hinj : m.TransInj) :
    ∀ n1 n2 h, fupd m.translations name ⟨c⟩ n1 = some h →
      fupd m.translations name ⟨c⟩ n2 = some h → n1 = n2 := by
  intro n1 n2 h h1 h2
  rcases fupd_some_cases _ _ _ _ _ h1 with ⟨e1, rfl⟩ | h1' <;>
    rcases fupd_some_cases _ _ _ _ _ h2 with ⟨e2, he2⟩ | h2'
  · rw [e1, e2]
  · exact absurd (hb _ _ h2') (by simp)
  · subst he2
    exact absurd (hb _ _ h1') (by simp)
  · exact hinj _ _ _ h1' h2'

/-- One step of the operation semantics: the minted ids are exactly
`range' c` of their number, the counter advances by that number (mod `2^32`),
the id bound advances with it, and name-index injectivity is preserved. -/
theorem step_spec (m : ResourceManager T) (o : Op T) (c : Nat)
    (hnext : m.next_handle = c % u32Mod)
    (hb : m.BoundedBy c) (hinj : m.TransInj)
    (hc : c + (m.mintedBy o).length ≤ u32Mod) :
    m.mintedBy o = List.range' c (m.mintedBy o).length ∧
      (m.step o).next_handle = (c + (m.mintedBy o).length) % u32Mod ∧
      (m.step o).BoundedBy (c + (m.mintedBy o).length) ∧
      (m.step o).TransInj := by
  obtain ⟨hbt, hbr, hbp⟩ := hb
  cases o with
  | get h =>
    exact ⟨by simp [mintedBy], by simp [mintedBy, step, hnext],
      ⟨by simpa [mintedBy, step] using hbt, by simpa [mintedBy, step] using hbr,
        by simpa [mintedBy, step] using hbp⟩,
      by simpa [mintedBy, step] using hinj⟩
  | get_mut h f =>
    refine ⟨by simp [mintedBy], ?_, ⟨?_, ?_, ?_⟩, ?_⟩ <;>
      simp only [mintedBy, step, get_mut_update, List.length_nil, Nat.add_zero]
    · cases hr : m.resources h <;> simp [hnext]
    · cases hr : m.resources h <;> simpa using hbt
    · cases hr : m.resources h
      · simpa using hbr
      · simp only []
        intro h' r' hsome
        rcases fupd_some_cases _ _ _ _ _ hsome with ⟨rfl, _⟩ | hold
        · exact hbr _ _ hr
        · exact hbr _ _ hold
    · cases hr : m.resources h <;> simpa using hbp
    · cases hr : m.resources h <;> simpa [TransInj] using hinj
  | remove h =>
    refine ⟨by simp [mintedBy], ?_, ⟨?_, ?_, ?_⟩, ?_⟩ <;>
      simp only [mintedBy, step, remove, List.length_nil, Nat.add_zero]
    · exact hnext
    · exact hbt
    · intro h' r' hsome
      exact hbr _ _ (fdel_some _ _ _ _ hsome)
    · exact hbp
    · exact hinj
  | reserve name =>
    cases hask : m.ask name with
    | some h =>
      refine ⟨by simp [mintedBy, hask], ?_, ⟨?_, ?_, ?_⟩, ?_⟩ <;>
        simp only [mintedBy, step, reserve, hask, List.length_nil, Nat.add_zero]
      · exact hnext
      · exact hbt
      · exact hbr
      · exact hbp
      · exact hinj
    | none =>
      have hml : (m.mintedBy (Op.reserve name)).length = 1 := by
        simp [mintedBy, hask]
      have hclt : c < u32Mod := by omega
      have hcm : c % u32Mod = c := Nat.mod_eq_of_lt hclt
      refine ⟨?_, ?_, ⟨?_, ?_, ?_⟩, ?_⟩ <;>
        simp only [mintedBy, step, reserve, hask, gen_handle, List.length_cons,
          List.length_nil, Nat.zero_add]
      · simp [hnext, hcm, List.range'_succ]
      · rw [hnext, hcm]
      · intro n h hsome
        rw [hnext, hcm] at hsome
        rcases fupd_some_cases _ _ _ _ _ hsome with ⟨_, rfl⟩ | hold
        · simp
        · exact Nat.lt_succ_of_lt (hbt _ _ hold)
      · intro h r hsome
        exact Nat.lt_succ_of_lt (hbr _ _ hsome)
      · intro p h hsome
        exact Nat.lt_succ_of_lt (hbp _ _ hsome)
      · intro n1 n2 h h1 h2
        rw [hnext, hcm] at h1 h2
        exact transInj_fupd_fresh m c name hbt hinj n1 n2 h h1 h2
  | wrap r name dmd =>
    cases hask : m.ask name with
    | some h =>
      have hhid : h.id < c := hbt _ _ hask
      have hw := wrap_of_ask_some m r name dmd h hask
      have htr : (m.wrap r name dmd).2.translations = m.translations := by
        unfold wrap
        cases dmd with
        | some d => simp [hask, register_translations, wrap_replace]
        | none => simp [hask, wrap_replace]
      have hpd : ∀ p, (m.wrap r name dmd).2.path_deps_mappings p
          = m.path_deps_mappings p ∨
          (m.wrap r name dmd).2.path_deps_mappings p = some h := by
        intro p
        unfold wrap
        cases dmd with
        | some d =>
          simpa [hask] using
            register_paths_cases h d (m.wrap_replace h r) p
        | none => exact Or.inl (by simp [hask, wrap_replace])
      refine ⟨by simp [mintedBy, hask], ?_, ⟨?_, ?_, ?_⟩, ?_⟩ <;>
        simp only [mintedBy, hask, step, List.length_nil, Nat.add_zero]
      · rw [hw.2.1, hnext]
      · rw [htr]
        exact hbt
      · intro h' r' hsome
        rw [hw.2.2] at hsome
        rcases fupd_some_cases _ _ _ _ _ hsome with ⟨rfl, _⟩ | hold
        · exact hhid
        · exact hbr _ _ hold
      · intro p h' hsome
        rcases hpd p with he | he
        · rw [he] at hsome
          exact hbp _ _ hsome
        · rw [he] at hsome
          cases hsome
          exact hhid
      · intro n1 n2 h' h1 h2
        rw [htr] at h1 h2
        exact hinj _ _ _ h1 h2
    | none =>
      have hml : (m.mintedBy (Op.wrap r name dmd)).length = 1 := by
        simp [mintedBy, hask]
      have hclt : c < u32Mod := by omega
      have hcm : c % u32Mod = c := Nat.mod_eq_of_lt hclt
      have hnc : m.next_handle = c := by rw [hnext, hcm]
      have htr : (m.wrap r name dmd).2.translations
          = fupd m.translations name ⟨c⟩ := by
        unfold wrap
        cases dmd with
        | some d => simp [hask, register_translations, wrap_create, gen_handle, hnc]
        | none => simp [hask, wrap_create, gen_handle, hnc]
      have hres : (m.wrap r name dmd).2.resources
          = fupd m.resources ⟨c⟩ r := by
        unfold wrap
        cases dmd with
        | some d => simp [hask, register_resources, wrap_create, gen_handle, hnc]
        | none => simp [hask, wrap_create, gen_handle, hnc]
      have hnx : (m.wrap r name dmd).2.next_handle = (c + 1) % u32Mod := by
        unfold wrap
        cases dmd with
        | some d => simp [hask, register_next, wrap_create, gen_handle, hnc]
        | none => simp [hask, wrap_create, gen_handle, hnc]
      have hpd : ∀ p, (m.wrap r name dmd).2.path_deps_mappings p
          = m.path_deps_mappings p ∨
          (m.wrap r name dmd).2.path_deps_mappings p = some ⟨c⟩ := by
        intro p
        unfold wrap
        cases dmd with
        | some d =>
          have := register_paths_cases ⟨c⟩ d (m.wrap_create name r).2 p
          simp only [wrap_create, gen_handle, hnc] at this
          simpa [hask, wrap_create, gen_handle, hnc] using this
        | none =>
          exact Or.inl (by simp [hask, wrap_create, gen_handle])
      refine ⟨?_, ?_, ⟨?_, ?_, ?_⟩, ?_⟩ <;>
        simp only [mintedBy, hask, step, List.length_cons, List.length_nil,
          Nat.zero_add]
      · simp [hnc, List.range'_succ]
      · exact hnx
      · intro n h hsome
        rw [htr] at hsome
        rcases fupd_some_cases _ _ _ _ _ hsome with ⟨_, rfl⟩ | hold
        · simp
        · exact Nat.lt_succ_of_lt (hbt _ _ hold)
      · intro h' r' hsome
        rw [hres] at hsome
        rcases fupd_some_cases _ _ _ _ _ hsome with ⟨rfl, _⟩ | hold
        · simp
        · exact Nat.lt_succ_of_lt (hbr _ _ hold)
      · intro p h' hsome
        rcases hpd p with he | he
        · rw [he] at hsome
          exact Nat.lt_succ_of_lt (hbp _ _ hsome)
        · rw [he] at hsome
          cases hsome
          simp
      · intro n1 n2 h' h1 h2
        rw [htr] at h1 h2
        exact transInj_fupd_fresh m c name hbt hinj n1 n2 h' h1 h2

/-- Running any operation sequence: the minted ids are exactly the
consecutive ids starting at the ghost allocation count `c`, the counter
tracks the count mod `2^32`, all stored ids stay below the count, and the
name index stays injective. -/
theorem run_spec (ops : List (Op T)) (m : ResourceManager T) (c : Nat)
    (hnext : m.next_handle = c % u32Mod)
    (hb : m.BoundedBy c) (hinj : m.TransInj)
    (hcap : c + (m.mintedIds ops).length ≤ u32Mod) :
    m.mintedIds ops = List.range' c (m.mintedIds ops).length ∧
      (m.runOps ops).next_handle = (c + (m.mintedIds ops).length) % u32Mod ∧
      (m.runOps ops).BoundedBy (c + (m.mintedIds ops).length) ∧
      (m.runOps ops).TransInj := by
  induction ops generalizing m c with
  | nil => exact ⟨rfl, by simpa [mintedIds, runOps] using hnext,
      by simpa [mintedIds, runOps] using hb,
      by simpa [mintedIds, runOps] using hinj⟩
  | cons o ops ih =>
    have hlen : (m.mintedIds (o :: ops)).length
        = (m.mintedBy o).length + ((m.step o).mintedIds ops).length := by
      simp [mintedIds]
    have hc1 : c + (m.mintedBy o).length ≤ u32Mod := by omega
    obtain ⟨s1, s2, s3, s4⟩ := step_spec m o c hnext ⟨hb.1, hb.2.1, hb.2.2⟩ hinj hc1
    have hcap' : (c + (m.mintedBy o).length)
        + ((m.step o).mintedIds ops).length ≤ u32Mod := by omega
    obtain ⟨r1, r2, r3, r4⟩ := ih (m.step o) (c + (m.mintedBy o).length) s2 s3 s4 hcap'
    refine ⟨?_, ?_, ?_, r4⟩
    · show m.mintedBy o ++ (m.step o).mintedIds ops = _
      have e := List.range'_append_1 c (m.mintedBy o).length
        ((m.step o).mintedIds ops).length
      rw [hlen, Nat.add_comm (m.mintedBy o).length, ← e, ← s1, ← r1]
    · show (((m.step o)).runOps ops).next_handle = _
      rw [r2, hlen]
      congr 1
      omega
    · show (((m.step o)).runOps ops).BoundedBy _
      rw [hlen, ← Nat.add_assoc]
      exact r3

end ResourceManager

/-- C2 (amended): from a fresh table, along any operation sequence that
allocates at most `2^32` handles, the minted ids are exactly `0, 1, 2, …` in
allocation order — strictly increasing, never reused (also across `remove`) —
and distinct names are bound to distinct handles. -/
theorem minted_ids_strictly_increasing {T : Type} (ops : List (Op T))
    (hcap : ((ResourceManager.new (T := T)).mintedIds ops).length ≤ u32Mod) :
    ((ResourceManager.new (T := T)).mintedIds ops
        = List.range ((ResourceManager.new (T := T)).mintedIds ops).length) ∧
      ((ResourceManager.new (T := T)).mintedIds ops).Pairwise (· < ·) ∧
      (∀ n1 n2 h,
        ((ResourceManager.new (T := T)).runOps ops).translations n1 = some h →
        ((ResourceManager.new (T := T)).runOps ops).translations n2 = some h →
        n1 = n2) := by
  obtain ⟨r1, _, _, r4⟩ :=
    ResourceManager.run_spec ops ResourceManager.new 0
      (by simp [ResourceManager.new])
      ⟨fun n h hx => by simp [ResourceManager.new] at hx,
        fun h r hx => by simp [ResourceManager.new] at hx,
        fun p h hx => by simp [ResourceManager.new] at hx⟩
      (fun n1 n2 h h1 _ => by simp [ResourceManager.new] at h1)
      (by simpa using hcap)
  have hrange : ((ResourceManager.new (T := T)).mintedIds ops)
      = List.range ((ResourceManager.new (T := T)).mintedIds ops).length := by
    rw [List.range_eq_range']
    simpa using r1
  refine ⟨hrange, ?_, r4⟩
  rw [hrange, List.range_eq_range']
  exact List.pairwise_lt_range' 0 _

/-- Concrete operation sequence used to instantiate
`minted_ids_strictly_increasing`. -/
def c2ops : List (Op Nat) :=
  [Op.reserve "a", Op.wrap 5 "b" none, Op.remove ⟨0⟩, Op.reserve "a",
    Op.wrap 7 "b" none]

theorem minted_ids_strictly_increasing_witness :
    ((ResourceManager.new (T := Nat)).mintedIds c2ops).length ≤ u32Mod ∧
      (((ResourceManager.new (T := Nat)).mintedIds c2ops
          = List.range ((ResourceManager.new (T := Nat)).mintedIds c2ops).length) ∧
        ((ResourceManager.new (T := Nat)).mintedIds c2ops).Pairwise (· < ·) ∧
        (∀ n1 n2 h,
          ((ResourceManager.new (T := Nat)).runOps c2ops).translations n1 = some h →
          ((ResourceManager.new (T := Nat)).runOps c2ops).translations n2 = some h →
          n1 = n2)) :=
  ⟨by decide, minted_ids_strictly_increasing c2ops (by decide)⟩

/-- Name with `i` characters: used to build arbitrarily many distinct
names. -/
def uname (i : Nat) : String :=
  ⟨List.replicate i 'a'⟩

theorem uname_ne {i j : Nat} (h : i ≠ j) : uname i ≠ uname j := by
  intro he
  apply h
  have := congrArg (fun s => s.data.length) he
  simpa [uname] using this

/-- `k` successive `reserve` operations under the fresh names
`uname i, …, uname (i + k - 1)`. -/
def reserveSeq (T : Type) (i k : Nat) : List (Op T) :=
  (List.range' i k).map fun j => Op.reserve (uname j)

/-- Exact behaviour of a run of `reserve` operations under fresh distinct
names: each one mints (so the minted ids are the `u32`-wrapped counter
values), and each name ends bound to the wrapped counter value at its
allocation. -/
theorem reserveSeq_spec {T : Type} :
    ∀ (k i : Nat) (s : ResourceManager T),
    (∀ m, i ≤ m → s.translations (uname m) = none) →
    s.next_handle = i % u32Mod →
    s.mintedIds (reserveSeq T i k) = (List.range' i k).map (· % u32Mod) ∧
      (s.runOps (reserveSeq T i k)).next_handle = (i + k) % u32Mod ∧
      (∀ m, m < i → (s.runOps (reserveSeq T i k)).translations (uname m)
          = s.translations (uname m)) ∧
      (∀ m, i ≤ m → m < i + k →
        (s.runOps (reserveSeq T i k)).translations (uname m)
          = some ⟨m % u32Mod⟩) := by
  intro k
  induction k with
  | zero =>
    intro i s hnone hnext
    refine ⟨by simp [reserveSeq, ResourceManager.mintedIds], ?_,
      fun m _ => by simp [reserveSeq, ResourceManager.runOps], fun m h1 h2 => by omega⟩
    simpa [reserveSeq, ResourceManager.runOps] using hnext
  | succ k ih =>
    intro i s hnone hnext
    have hseq : reserveSeq T i (k + 1)
        = Op.reserve (uname i) :: reserveSeq T (i + 1) k := by
      simp [reserveSeq, List.range'_succ]
    have hask : s.ask (uname i) = none := hnone i (Nat.le_refl i)
    have hstep : s.step (Op.reserve (uname i))
        = { s with
              next_handle := (s.next_handle + 1) % u32Mod
              translations :=
                fupd s.translations (uname i) ⟨s.next_handle⟩ } := by
      simp [ResourceManager.step, ResourceManager.reserve, hask,
        ResourceManager.gen_handle]
    have hmint : s.mintedBy (Op.reserve (uname i)) = [s.next_handle] := by
      simp [ResourceManager.mintedBy, hask]
    have hnone' : ∀ m, i + 1 ≤ m →
        (s.step (Op.reserve (uname i))).translations (uname m) = none := by
      intro m hm
      rw [hstep]
      simp only [fupd]
      rw [if_neg (uname_ne (by omega))]
      exact hnone m (by omega)
    have hnext' : (s.step (Op.reserve (uname i))).next_handle
        = (i + 1) % u32Mod := by
      rw [hstep]
      simp only []
      rw [hnext, Nat.mod_add_mod]
    obtain ⟨ih1, ih2, ih3, ih4⟩ := ih (i + 1) _ hnone' hnext'
    refine ⟨?_, ?_, ?_, ?_⟩
    · rw [hseq]
      show s.mintedBy (Op.reserve (uname i))
          ++ (s.step (Op.reserve (uname i))).mintedIds (reserveSeq T (i + 1) k) = _
      rw [hmint, ih1, List.range'_succ, List.map_cons, hnext]
      rfl
    · rw [hseq]
      show ((s.step (Op.reserve (uname i))).runOps (reserveSeq T (i + 1) k)).next_handle = _
      rw [ih2]
      congr 1
      omega
    · intro m hm
      rw [hseq]
      show ((s.step (Op.reserve (uname i))).runOps (reserveSeq T (i + 1) k)).translations (uname m) = _
      rw [ih3 m (by omega), hstep]
      simp only [fupd]
      rw [if_neg (uname_ne (by omega))]
    · intro m hm1 hm2
      rw [hseq]
      show ((s.step (Op.reserve (uname i))).runOps (reserveSeq T (i + 1) k)).translations (uname m) = _
      by_cases hmi : m = i
      · subst hmi
        rw [ih3 m (by omega), hstep]
        simp [fupd, hnext]
      · exact ih4 m (by omega) (by omega)

/-- Operation sequence of `2^32 + 1` reserves under distinct names: one more
allocation than the `u32` counter can distinguish. -/
def c2cexOps : List (Op Unit) := reserveSeq Unit 0 (u32Mod + 1)

/-- C2 counterexample: after `2^32 + 1` allocations (all under distinct
names) the minted ids are NOT duplicate-free — the `u32` counter has wrapped
and id `0` is minted twice — refuting strict increase and no-reuse for
unboundedly long sequences. -/
theorem minted_ids_reused_after_wraparound :
    ((ResourceManager.new (T := Unit)).mintedIds c2cexOps).Nodup = False := by
  obtain ⟨h1, _, _, _⟩ :=
    reserveSeq_spec (u32Mod + 1) 0 (ResourceManager.new (T := Unit))
      (fun m _ => rfl) (by simp [ResourceManager.new])
  apply eq_false
  intro hnd
  rw [show c2cexOps = reserveSeq Unit 0 (u32Mod + 1) from rfl, h1,
    List.range'_succ, List.map_cons, Nat.zero_mod] at hnd
  rcases List.nodup_cons.mp hnd with ⟨hnotmem, _⟩
  apply hnotmem
  refine List.mem_map.mpr ⟨u32Mod, ?_, Nat.mod_self u32Mod⟩
  rw [List.mem_range'_1]
  constructor
  · decide
  · omega

/-- C10 (amended): every table state reachable from a fresh table by a
sequence of `wrap`, `reserve`, `get`, `get_mut` and `remove` operations that
performs fewer than `2^32` allocations satisfies: every handle stored in the
value map, the name index or the dependency-path index has id strictly below
the next-handle counter; hence the next handle `gen_handle` would mint
differs from every stored handle. -/
theorem reachable_ids_below_counter {T : Type} (ops : List (Op T))
    (hcap : ((ResourceManager.new (T := T)).mintedIds ops).length < u32Mod) :
    (∀ n h, ((ResourceManager.new (T := T)).runOps ops).translations n = some h →
        h.id < ((ResourceManager.new (T := T)).runOps ops).next_handle) ∧
      (∀ h r, ((ResourceManager.new (T := T)).runOps ops).resources h = some r →
        h.id < ((ResourceManager.new (T := T)).runOps ops).next_handle) ∧
      (∀ p h,
        ((ResourceManager.new (T := T)).runOps ops).path_deps_mappings p = some h →
        h.id < ((ResourceManager.new (T := T)).runOps ops).next_handle) ∧
      (∀ h,
        ((∃ r, ((ResourceManager.new (T := T)).runOps ops).resources h = some r) ∨
          (∃ n, ((ResourceManager.new (T := T)).runOps ops).translations n = some h) ∨
          (∃ p, ((ResourceManager.new (T := T)).runOps ops).path_deps_mappings p
            = some h)) →
        ((ResourceManager.new (T := T)).runOps ops).gen_handle.1 ≠ h) := by
  obtain ⟨_, r2, ⟨b1, b2, b3⟩, _⟩ :=
    ResourceManager.run_spec ops ResourceManager.new 0
      (by simp [ResourceManager.new])
      ⟨fun n h hx => by simp [ResourceManager.new] at hx,
        fun h r hx => by simp [ResourceManager.new] at hx,
        fun p h hx => by simp [ResourceManager.new] at hx⟩
      (fun n1 n2 h h1 _ => by simp [ResourceManager.new] at h1)
      (by omega)
  have hk : ((ResourceManager.new (T := T)).runOps ops).next_handle
      = ((ResourceManager.new (T := T)).mintedIds ops).length := by
    rw [r2, Nat.zero_add, Nat.mod_eq_of_lt hcap]
  refine ⟨fun n h hx => ?_, fun h r hx => ?_, fun p h hx => ?_, fun h hx => ?_⟩
  · rw [hk]
    simpa using b1 n h hx
  · rw [hk]
    simpa using b2 h r hx
  · rw [hk]
    simpa using b3 p h hx
  · have hlt : h.id < ((ResourceManager.new (T := T)).runOps ops).next_handle := by
      rcases hx with ⟨r, hr⟩ | ⟨n, hn⟩ | ⟨p, hp⟩
      · rw [hk]
        simpa using b2 h r hr
      · rw [hk]
        simpa using b1 n h hn
      · rw [hk]
        simpa using b3 p h hp
    intro he
    rw [ResourceManager.gen_handle] at he
    have : h.id = ((ResourceManager.new (T := T)).runOps ops).next_handle := by
      rw [← he]
    omega

/-- Concrete operation sequence used to instantiate
`reachable_ids_below_counter`. -/
def c10ops : List (Op Nat) :=
  [Op.wrap 3 "m" (some ⟨["p1", "p2"]⟩), Op.reserve "s", Op.get_mut ⟨0⟩ (· + 1),
    Op.remove ⟨0⟩, Op.wrap 9 "m" none]

theorem reachable_ids_below_counter_witness :
    ((ResourceManager.new (T := Nat)).mintedIds c10ops).length < u32Mod ∧
      ((∀ n h, ((ResourceManager.new (T := Nat)).runOps c10ops).translations n = some h →
          h.id < ((ResourceManager.new (T := Nat)).runOps c10ops).next_handle) ∧
        (∀ h r, ((ResourceManager.new (T := Nat)).runOps c10ops).resources h = some r →
          h.id < ((ResourceManager.new (T := Nat)).runOps c10ops).next_handle) ∧
        (∀ p h,
          ((ResourceManager.new (T := Nat)).runOps c10ops).path_deps_mappings p = some h →
          h.id < ((ResourceManager.new (T := Nat)).runOps c10ops).next_handle) ∧
        (∀ h,
          ((∃ r, ((ResourceManager.new (T := Nat)).runOps c10ops).resources h = some r) ∨
            (∃ n, ((ResourceManager.new (T := Nat)).runOps c10ops).translations n = some h) ∨
            (∃ p, ((ResourceManager.new (T := Nat)).runOps c10ops).path_deps_mappings p
              = some h)) →
          ((ResourceManager.new (T := Nat)).runOps c10ops).gen_handle.1 ≠ h)) :=
  ⟨by decide, reachable_ids_below_counter c10ops (by decide)⟩

/-- C10 counterexample: after exactly `2^32` allocations (a run of `2^32`
reserves under distinct names) the `u32` counter has wrapped back to `0`,
yet the name index still stores handle `⟨0⟩` (under the first name), so the
claimed invariant `stored id < next counter` fails on this reachable state,
and the next `gen_handle` mint equals the stored handle `⟨0⟩`. -/
theorem stored_id_not_below_counter_after_wraparound :
    ((ResourceManager.new (T := Unit)).runOps
          (reserveSeq Unit 0 u32Mod)).translations (uname 0)
        = some ⟨0⟩ ∧
      ((ResourceManager.new (T := Unit)).runOps
          (reserveSeq Unit 0 u32Mod)).next_handle = 0 ∧
      ((ResourceManager.new (T := Unit)).runOps
          (reserveSeq Unit 0 u32Mod)).gen_handle.1 = ⟨0⟩ ∧
      ((0 : Nat)
        < ((ResourceManager.new (T := Unit)).runOps
            (reserveSeq Unit 0 u32Mod)).next_handle)
        = False := by
  obtain ⟨_, h2, _, h4⟩ :=
    reserveSeq_spec u32Mod 0 (ResourceManager.new (T := Unit))
      (fun m _ => rfl) (by simp [ResourceManager.new])
  have hnext0 : ((ResourceManager.new (T := Unit)).runOps
      (reserveSeq Unit 0 u32Mod)).next_handle = 0 := by
    rw [h2, Nat.zero_add, Nat.mod_self]
  refine ⟨?_, hnext0, ?_, ?_⟩
  · have hb0 := h4 0 (Nat.le_refl 0) (by unfold u32Mod; omega)
    rw [Nat.zero_mod] at hb0
    exact hb0
  · rw [ResourceManager.gen_handle, hnext0]
  · rw [hnext0]
    simp

/-- C8: `remove` deletes (and returns) the stored value only — the name
index and the dependency-path index are untouched, a name previously bound
to the handle still resolves to it through `ask`, while `get` on the handle
now yields nothing. -/
theorem remove_deletes_value_only {T : Type} (m : ResourceManager T)
    (h : Handle) (name : String) (hname : m.ask name = some h) :
    (m.remove h).1 = m.resources h ∧
      (m.remove h).2.translations = m.translations ∧
      (m.remove h).2.path_deps_mappings = m.path_deps_mappings ∧
      (m.remove h).2.get h = none ∧
      (m.remove h).2.ask name = some h := by
  refine ⟨rfl, rfl, rfl, ?_, hname⟩
  simp [ResourceManager.remove, ResourceManager.get, fdel]

/-- Concrete table used to instantiate `remove_deletes_value_only`: one
wrapped value with one declared dependency path. -/
def c8table : ResourceManager Nat :=
  ((ResourceManager.new (T := Nat)).wrap 11 "a" (some ⟨["dep"]⟩)).2

theorem remove_deletes_value_only_witness :
    c8table.ask "a" = some ⟨0⟩ ∧
      ((c8table.remove ⟨0⟩).1 = c8table.resources ⟨0⟩ ∧
        (c8table.remove ⟨0⟩).2.translations = c8table.translations ∧
        (c8table.remove ⟨0⟩).2.path_deps_mappings = c8table.path_deps_mappings ∧
        (c8table.remove ⟨0⟩).2.get ⟨0⟩ = none ∧
        (c8table.remove ⟨0⟩).2.ask "a" = some ⟨0⟩) :=
  ⟨by decide, remove_deletes_value_only c8table ⟨0⟩ "a" (by decide)⟩

/-- C9: after `reserve` of an unbound name, `get` on the returned handle is
empty; a subsequent `wrap` of a value under the same name returns the
reserved handle, mints nothing (counter untouched), and afterwards `get`
yields the wrapped value.  The hypothesis `hres` (no value is parked at the
counter's current id) holds in every state the table can actually reach —
see `reachable_ids_below_counter`. -/
theorem reserve_then_wrap_same_handle {T : Type} (m : ResourceManager T)
    (name : String) (r : T) (dmd : Option DecodingMetadata)
    (hname : m.ask name = none)
    (hres : m.resources ⟨m.next_handle⟩ = none) :
    (m.reserve name).2.get (m.reserve name).1 = none ∧
      ((m.reserve name).2.wrap r name dmd).1 = (m.reserve name).1 ∧
      ((m.reserve name).2.wrap r name dmd).2.next_handle
        = (m.reserve name).2.next_handle ∧
      ((m.reserve name).2.wrap r name dmd).2.get (m.reserve name).1
        = some r := by
  have hresv : m.reserve name
      = (⟨m.next_handle⟩,
          { m with
              next_handle := (m.next_handle + 1) % u32Mod
              translations :=
                fupd m.translations name ⟨m.next_handle⟩ }) := by
    simp [ResourceManager.reserve, hname, ResourceManager.gen_handle]
  have hask2 : (m.reserve name).2.ask name = some (m.reserve name).1 := by
    rw [hresv]
    simp [ResourceManager.ask, fupd]
  obtain ⟨w1, w2, w3⟩ :=
    ResourceManager.wrap_of_ask_some (m.reserve name).2 r name dmd
      (m.reserve name).1 hask2
  refine ⟨?_, w1, w2, ?_⟩
  · rw [hresv]
    simpa [ResourceManager.get] using hres
  · rw [ResourceManager.get, w3]
    simp [fupd]

theorem reserve_then_wrap_same_handle_witness :
    (ResourceManager.new (T := Nat)).ask "a" = none ∧
      (ResourceManager.new (T := Nat)).resources
        ⟨(ResourceManager.new (T := Nat)).next_handle⟩ = none ∧
      (((ResourceManager.new (T := Nat)).reserve "a").2.get
          ((ResourceManager.new (T := Nat)).reserve "a").1 = none ∧
        (((ResourceManager.new (T := Nat)).reserve "a").2.wrap 42 "a" none).1
          = ((ResourceManager.new (T := Nat)).reserve "a").1 ∧
        (((ResourceManager.new (T := Nat)).reserve "a").2.wrap 42 "a" none).2.next_handle
          = ((ResourceManager.new (T := Nat)).reserve "a").2.next_handle ∧
        (((ResourceManager.new (T := Nat)).reserve "a").2.wrap 42 "a" none).2.get
          ((ResourceManager.new (T := Nat)).reserve "a").1 = some 42) :=
  ⟨by decide, by decide,
    reserve_then_wrap_same_handle ResourceManager.new "a" 42 none
      (by decide) (by decide)⟩

/-! ## Filename keys (`src/entity.rs`)

`EntitySystem::traverse_directory` derives the dispatch extension with
`Path::extension` and, for `json` files, `EntitySystem::extract_sub_extension`
derives the sub-extension from `Path::file_stem` by taking the component
after the last dot of the stem (requiring at least two dot-separated
components).  Both are modelled on the path's file name (its final
component), as lists of characters. -/

/-- Scan a REVERSED character list for its first `'.'`: returns the
characters before it (i.e. after the last dot of the unreversed list, still
reversed) and the remainder.  `none` when there is no dot. -/
def splitExtRev : List Char → Option (List Char × List Char)
  | [] => none
  | c :: rest =>
    if c = '.' then some ([], rest)
    else (splitExtRev rest).map fun p => (c :: p.1, p.2)

/-- Rust `Path::file_stem` / `Path::extension` on a file name: split at the
last dot; when there is no dot, or everything before the last dot is empty
(name starting with its only dot), the whole name is the stem and there is
no extension. -/
def fileExtStem (name : List Char) : List Char × Option (List Char) :=
  match splitExtRev name.reverse with
  | none => (name, none)
  | some (extRev, stemRev) =>
    if stemRev = [] then (name, none)
    else (stemRev.reverse, some extRev.reverse)

/-- `EntitySystem::extract_sub_extension`: the component of the file stem
after its last dot, provided the stem has at least two dot-separated
components (equivalently: contains a dot); `none` otherwise. -/
def extract_sub_extension (name : List Char) : Option (List Char) :=
  match splitExtRev (fileExtStem name).1.reverse with
  | some (subRev, _) => some subRev.reverse
  | none => none

/-- The spec's `derive_keys`: the pair (extension, sub-extension) the entity
system dispatches on, with the empty string standing for an absent
component. -/
def derive_keys (name : String) : String × String :=
  (⟨((fileExtStem name.data).2).getD []⟩, ⟨(extract_sub_extension name.data).getD []⟩)

theorem splitExtRev_no_dot {e : List Char} (he : '.' ∉ e) (r : List Char) :
    splitExtRev (e ++ '.' :: r) = some (e, r) := by
  induction e with
  | nil => simp [splitExtRev]
  | cons c cs ih =>
    have hc : ¬(c = '.') := fun hcc => he (by simp [hcc])
    have ih' := ih (fun hm => he (by simp [hm]))
    simp [splitExtRev, hc, ih']

theorem splitExtRev_of_no_dot {e : List Char} (he : '.' ∉ e) :
    splitExtRev e = none := by
  induction e with
  | nil => rfl
  | cons c cs ih =>
    have hc : ¬(c = '.') := fun hcc => he (by simp [hcc])
    simp [splitExtRev, if_neg hc, ih (fun hm => he (by simp [hm]))]

/-- C7: key derivation takes the final dot-suffix as the extension and the
dot-suffix preceding it in the file stem as the sub-extension, with `""` as
sub-extension when the stem has fewer than two dot-separated components
(names written `a ++ "." ++ c` and `a ++ "." ++ b ++ "." ++ c` with dot-free
components); in particular on `a.obj`, `a.param.json` and
`archive.tar.gz`. -/
theorem derive_keys_spec :
    (∀ a b c : List Char, a ≠ [] → '.' ∉ a → '.' ∉ b → '.' ∉ c →
      derive_keys ⟨a ++ '.' :: c⟩ = (⟨c⟩, "") ∧
        derive_keys ⟨a ++ '.' :: b ++ '.' :: c⟩ = (⟨c⟩, ⟨b⟩)) ∧
      derive_keys "a.obj" = ("obj", "") ∧
      derive_keys "a.param.json" = ("json", "param") ∧
      derive_keys "archive.tar.gz" = ("gz", "tar") := by
  refine ⟨?_, by decide, by decide, by decide⟩
  intro a b c ha hda hdb hdc
  constructor
  · have hsplit : splitExtRev (a ++ '.' :: c).reverse
        = some (c.reverse, a.reverse) := by
      rw [show (a ++ '.' :: c).reverse = c.reverse ++ '.' :: a.reverse by simp]
      exact splitExtRev_no_dot (by simpa using hdc) a.reverse
    have hstem : fileExtStem (a ++ '.' :: c) = (a, some c) := by
      rw [fileExtStem, hsplit]
      simp [ha]
    have hsub : extract_sub_extension (a ++ '.' :: c) = none := by
      rw [extract_sub_extension, hstem]
      rw [show ((a, some c) : List Char × Option (List Char)).1 = a from rfl]
      rw [splitExtRev_of_no_dot (by simpa using hda)]
    simp [derive_keys, hstem, hsub]
  · have hsplit : splitExtRev (a ++ '.' :: b ++ '.' :: c).reverse
        = some (c.reverse, b.reverse ++ '.' :: a.reverse) := by
      rw [show (a ++ '.' :: b ++ '.' :: c).reverse
          = c.reverse ++ '.' :: (b.reverse ++ '.' :: a.reverse) by simp]
      exact splitExtRev_no_dot (by simpa using hdc) _
    have hstem : fileExtStem (a ++ '.' :: b ++ '.' :: c)
        = (a ++ '.' :: b, some c) := by
      rw [fileExtStem, hsplit]
      simp
    have hsub : extract_sub_extension (a ++ '.' :: b ++ '.' :: c)
        = some b := by
      rw [extract_sub_extension, hstem]
      rw [show ((a ++ '.' :: b, some c) : List Char × Option (List Char)).1
          = a ++ '.' :: b from rfl]
      rw [show (a ++ '.' :: b).reverse = b.reverse ++ '.' :: a.reverse by simp]
      rw [splitExtRev_no_dot (by simpa using hdb)]
      simp
    simp only [List.cons_append, List.append_assoc] at hstem hsub
    simp [derive_keys, hstem, hsub]

theorem derive_keys_spec_witness :
    ((['x'] : List Char) ≠ [] ∧ '.' ∉ (['x'] : List Char) ∧
        '.' ∉ (['p'] : List Char) ∧ '.' ∉ (['j'] : List Char)) ∧
      (derive_keys ⟨['x'] ++ '.' :: ['j']⟩ = (⟨['j']⟩, "") ∧
        derive_keys ⟨['x'] ++ '.' :: ['p'] ++ '.' :: ['j']⟩
          = (⟨['j']⟩, ⟨['p']⟩)) :=
  ⟨by decide,
    derive_keys_spec.1 ['x'] ['p'] ['j'] (by decide) (by decide) (by decide)
      (by decide)⟩

/-! ## Decoder dispatch (`src/entity/decoder.rs`)

A `Decoder` declares one `(EXT, SUB_EXT)` pair and a decode action on the
shared state (resource table + publisher, abstracted as a state type `St`;
for the concrete instances below the state is an observation trace).  The
single-decoder `HasDecoder` impl runs the decode action exactly when the
pair matches and returns `was_active`; the tuple impl chains members with
the short-circuiting `||`, i.e. stops at the first member that claims the
pair. -/

structure DecoderM (St : Type) where
  ext : String
  sub_ext : String
  decode : St → St

/-- `impl<D: Decoder> HasDecoder for D`: `was_active` is the claim test; the
decode action runs (possibly only logging a decode error) iff it holds. -/
def loadOne {St : Type} (d : DecoderM St) (ext : String) (sub_ext : String)
    (st : St) : Bool × St :=
  if ext = d.ext ∧ sub_ext = d.sub_ext then (true, d.decode st) else (false, st)

/-- `impl_has_decoder_tuple`: `A::load(…) || B::load(…) || … || false` over
an ordered collection, with `||`'s left-to-right short-circuit
evaluation. -/
def dispatch {St : Type} : List (DecoderM St) → String → String → St → Bool × St
  | [], _, _, st => (false, st)
  | d :: ds, ext, sub_ext, st =>
    let p := loadOne d ext sub_ext st
    if p.1 then (true, p.2) else dispatch ds ext sub_ext p.2

/-- `ParameterDecoder` (src/entity/parameter.rs: EXT "json", SUB_EXT
"param"), decode observed as a trace mark. -/
def paramDecoder : DecoderM (List String) :=
  ⟨"json", "param", fun tr => tr ++ ["param-decoded"]⟩

/-- `JSONShaderDecoder` (src/entity/shader.rs: EXT "json", SUB_EXT "shd"),
decode observed as a trace mark. -/
def shaderDecoder : DecoderM (List String) :=
  ⟨"json", "shd", fun tr => tr ++ ["shd-decoded"]⟩

/-- C3: dispatch invokes the decode action of exactly the first decoder
claiming the (extension, sub-extension) pair; when no member claims it, the
state is untouched and `false` ("unhandled") is reported.  Concretely, with
`D1 = ("json","param")` and `D2 = ("json","shd")`, the keys of
`x.param.json` invoke only D1 and the keys of `x.unknown.json` invoke
neither. -/
theorem dispatch_first_match :
    (∀ (St : Type) (pre post : List (DecoderM St)) (d : DecoderM St)
        (ext sub_ext : String) (st : St),
      (∀ d' ∈ pre, ¬(ext = d'.ext ∧ sub_ext = d'.sub_ext)) →
      ext = d.ext → sub_ext = d.sub_ext →
      dispatch (pre ++ d :: post) ext sub_ext st = (true, d.decode st)) ∧
      (∀ (St : Type) (ds : List (DecoderM St)) (ext sub_ext : String) (st : St),
        (∀ d' ∈ ds, ¬(ext = d'.ext ∧ sub_ext = d'.sub_ext)) →
        dispatch ds ext sub_ext st = (false, st)) ∧
      dispatch [paramDecoder, shaderDecoder] (derive_keys "x.param.json").1
          (derive_keys "x.param.json").2 [] = (true, ["param-decoded"]) ∧
      dispatch [paramDecoder, shaderDecoder] (derive_keys "x.unknown.json").1
          (derive_keys "x.unknown.json").2 [] = (false, []) := by
  refine ⟨?_, ?_, by decide, by decide⟩
  · intro St pre post d ext sub_ext st hpre hext hsub
    induction pre with
    | nil =>
      simp [dispatch, loadOne, hext, hsub]
    | cons p pre ih =>
      have hp : ¬(ext = p.ext ∧ sub_ext = p.sub_ext) := hpre p (by simp)
      have ih' := ih fun d' hd' => hpre d' (by simp [hd'])
      simp only [List.cons_append, dispatch, loadOne, if_neg hp]
      simpa using ih'
  · intro St ds ext sub_ext st hds
    induction ds with
    | nil => rfl
    | cons p ds ih =>
      have hp : ¬(ext = p.ext ∧ sub_ext = p.sub_ext) := hds p (by simp)
      have ih' := ih fun d' hd' => hds d' (by simp [hd'])
      simp only [dispatch, loadOne, if_neg hp]
      simpa using ih'

theorem dispatch_first_match_witness :
    ((∀ d' ∈ [paramDecoder], ¬(("json" : String) = d'.ext ∧
        ("shd" : String) = d'.sub_ext)) ∧
      ("json" : String) = shaderDecoder.ext ∧
      ("shd" : String) = shaderDecoder.sub_ext) ∧
      dispatch ([paramDecoder] ++ shaderDecoder :: []) "json" "shd"
        ([] : List String) = (true, shaderDecoder.decode []) :=
  ⟨⟨by decide, rfl, rfl⟩,
    dispatch_first_match.1 (List String) [paramDecoder] [] shaderDecoder
      "json" "shd" [] (by decide) rfl rfl⟩

/-! ## Publish / subscribe (`src/entity.rs`, impl Publisher for EntitySystem)

A subscriber is observed through its id and whether its mailbox's receiving
side is still open (`send_msg` succeeds iff it is). -/

structure Subscriber where
  sid : Nat
  alive : Bool
deriving DecidableEq

/-- `EntitySystem::publish`: iterate the subscriber list in registration
order, `send_msg(event.clone()).unwrap()` to each.  Returns the ids
delivered to, in order, and whether the loop panicked (`unwrap` of a failed
send). -/
def publish : List Subscriber → List Nat × Bool
  | [] => ([], false)
  | s :: rest =>
    if s.alive then
      let p := publish rest
      (s.sid :: p.1, p.2)
    else ([], true)

/-- `EntitySystem::subscribe`: `Vec::push`. -/
def subscribe (subs : List Subscriber) (s : Subscriber) : List Subscriber :=
  subs ++ [s]

/-- C4 (amended): `publish` delivers to the registered subscribers in
registration order as long as every send succeeds; prior deliveries are
never rolled back; but a failed send is `.unwrap()`ed — the publish panics
and the remaining subscribers are NOT delivered to.  A subscriber not in
the list at publish time (registered later via the appending `subscribe`)
receives nothing. -/
theorem publish_in_order_until_failure :
    (∀ subs : List Subscriber, (∀ s ∈ subs, s.alive = true) →
      publish subs = (subs.map Subscriber.sid, false)) ∧
      (∀ (pre post : List Subscriber) (s : Subscriber),
        (∀ s' ∈ pre, s'.alive = true) → s.alive = false →
        publish (pre ++ s :: post) = (pre.map Subscriber.sid, true)) ∧
      (∀ (subs : List Subscriber) (i : Nat), i ∉ subs.map Subscriber.sid →
        i ∉ (publish subs).1) ∧
      (∀ (subs : List Subscriber) (s : Subscriber), subscribe subs s = subs ++ [s]) := by
  refine ⟨?_, ?_, ?_, fun _ _ => rfl⟩
  · intro subs hall
    induction subs with
    | nil => rfl
    | cons s rest ih =>
      have hs : s.alive = true := hall s (by simp)
      have ih' := ih fun s' hs' => hall s' (by simp [hs'])
      simp [publish, hs, ih']
  · intro pre post s hpre hs
    induction pre with
    | nil => simp [publish, hs]
    | cons p pre ih =>
      have hp : p.alive = true := hpre p (by simp)
      have ih' := ih fun s' hs' => hpre s' (by simp [hs'])
      simp [publish, hp, ih']
  · intro subs i hni
    induction subs with
    | nil => simp [publish]
    | cons s rest ih =>
      have hi1 : ¬i = s.sid := fun he => hni (by simp [he])
      have ih' := ih fun hm => hni (by simp [hm])
      by_cases hs : s.alive <;> simp [publish, hs, hi1, ih']

theorem publish_in_order_until_failure_witness :
    ((∀ s ∈ [(⟨1, true⟩ : Subscriber), ⟨2, true⟩], s.alive = true) ∧
      publish [(⟨1, true⟩ : Subscriber), ⟨2, true⟩]
        = ([(⟨1, true⟩ : Subscriber), ⟨2, true⟩].map Subscriber.sid, false)) ∧
      ((7 : Nat) ∉ [(⟨1, true⟩ : Subscriber), ⟨2, true⟩].map Subscriber.sid ∧
        (7 : Nat) ∉ (publish [(⟨1, true⟩ : Subscriber), ⟨2, true⟩]).1) :=
  ⟨⟨by decide, publish_in_order_until_failure.1 _ (by decide)⟩,
    ⟨by decide, publish_in_order_until_failure.2.2.1 _ 7 (by decide)⟩⟩

/-- C4 counterexample: subscribers 1 (alive), 2 (mailbox gone), 3 (alive)
all registered before the publish.  The publish delivers to 1, panics on
the failed send to 2, and 3 never receives the event — refuting "a failed
send does not block or abort delivery to the remaining subscribers". -/
theorem publish_aborts_on_failed_send :
    publish [⟨1, true⟩, ⟨2, false⟩, ⟨3, true⟩] = ([1], true) ∧
      ((3 : Nat) ∈ (publish [⟨1, true⟩, ⟨2, false⟩, ⟨3, true⟩]).1) = False :=
  ⟨by decide, eq_false (by decide)⟩

/-! ## Directory traversal (`src/entity.rs`, EntitySystem::traverse_directory)

A directory listing is a list of entries; a regular file carries its name,
a readable subdirectory carries its own listing, `dirUnreadable` stands for
a subdirectory on which `read_dir` fails, `entryErr` for a `dir_entry` that
is an `Err`, and `other` for an entry that is neither a directory nor a
regular file. -/

inductive DirEntry where
  | file (name : String)
  | dir (entries : List DirEntry)
  | dirUnreadable
  | entryErr
  | other

/-- `EntitySystem::traverse_directory` over a listing: files are dispatched
(recorded here in visit order), subdirectories are recursed into
depth-first, entries that are neither are skipped; but `read_dir(path)` and
`dir_entry` results are `.unwrap()`ed, so an unreadable directory or a bad
entry panics (`Except.error`), aborting the walk. -/
def traverseEntries : List DirEntry → Except Unit (List String)
  | [] => .ok []
  | .entryErr :: _ => .error ()
  | .dirUnreadable :: _ => .error ()
  | .file n :: rest => (traverseEntries rest).map (n :: ·)
  | .dir es :: rest =>
    match traverseEntries es with
    | .error e => .error e
    | .ok l =>
      match traverseEntries rest with
      | .error e => .error e
      | .ok r => .ok (l ++ r)
  | .other :: rest => traverseEntries rest

/-- A listing (recursively) free of traversal errors. -/
def errorFree : List DirEntry → Bool
  | [] => true
  | .entryErr :: _ => false
  | .dirUnreadable :: _ => false
  | .file _ :: rest => errorFree rest
  | .dir es :: rest => errorFree es && errorFree rest
  | .other :: rest => errorFree rest

/-- The regular files of a listing in depth-first visit order. -/
def filesOf : List DirEntry → List String
  | [] => []
  | .entryErr :: rest => filesOf rest
  | .dirUnreadable :: rest => filesOf rest
  | .file n :: rest => n :: filesOf rest
  | .dir es :: rest => filesOf es ++ filesOf rest
  | .other :: rest => filesOf rest

/-- C5 (amended): entries that are neither directory nor regular file are
skipped and the walk continues, and an error-free tree is walked completely
(every file visited, depth-first); but a directory entry that raises a
traversal error, or an unreadable subdirectory, makes the walk panic
(`unwrap`), aborting the entire traversal rather than being skipped. -/
theorem traversal_skips_others_but_panics_on_errors :
    (∀ rest, traverseEntries (DirEntry.other :: rest) = traverseEntries rest) ∧
      (∀ es, errorFree es = true → traverseEntries es = .ok (filesOf es)) ∧
      (∀ rest, traverseEntries (DirEntry.entryErr :: rest) = .error ()) ∧
      (∀ rest, traverseEntries (DirEntry.dirUnreadable :: rest) = .error ()) := by
  refine ⟨fun rest => by simp [traverseEntries], ?_,
    fun rest => by simp [traverseEntries], fun rest => by simp [traverseEntries]⟩
  intro es hes
  induction es using traverseEntries.induct with
  | case1 => simp [traverseEntries, filesOf]
  | case2 rest => simp [errorFree] at hes
  | case3 rest => simp [errorFree] at hes
  | case4 n rest ih =>
    rw [errorFree] at hes
    simp [traverseEntries, ih hes, filesOf, Except.map]
  | case5 es' rest e he ih1 =>
    rw [errorFree, Bool.and_eq_true] at hes
    rw [ih1 hes.1] at he
    cases he
  | case6 es' rest r hr e he ih1 ih2 =>
    rw [errorFree, Bool.and_eq_true] at hes
    rw [ih2 hes.2] at he
    cases he
  | case7 es' rest r1 h1 r2 h2 ih1 ih2 =>
    rw [errorFree, Bool.and_eq_true] at hes
    simp [traverseEntries, ih1 hes.1, ih2 hes.2, filesOf]
  | case8 rest ih =>
    rw [errorFree] at hes
    simp [traverseEntries, ih hes, filesOf]

theorem traversal_skips_others_but_panics_on_errors_witness :
    (traverseEntries [DirEntry.other, DirEntry.file "a.obj"]
        = traverseEntries [DirEntry.file "a.obj"]) ∧
      (errorFree [DirEntry.file "a.obj",
            DirEntry.dir [DirEntry.file "b.param.json"]] = true ∧
        traverseEntries [DirEntry.file "a.obj",
            DirEntry.dir [DirEntry.file "b.param.json"]]
          = .ok (filesOf [DirEntry.file "a.obj",
              DirEntry.dir [DirEntry.file "b.param.json"]])) :=
  ⟨traversal_skips_others_but_panics_on_errors.1 [DirEntry.file "a.obj"],
    ⟨by simp [errorFree],
      traversal_skips_others_but_panics_on_errors.2.1
        [DirEntry.file "a.obj", DirEntry.dir [DirEntry.file "b.param.json"]]
        (by simp [errorFree])⟩⟩

/-- C5 counterexample: a listing whose first entry raises a traversal error
(or is an unreadable subdirectory) makes the whole walk abort with a panic —
the following regular file `a.obj` is never visited — refuting "logs and
skips that entry and the walk continues, never aborts". -/
theorem walk_aborts_on_bad_entry :
    traverseEntries [DirEntry.entryErr, DirEntry.file "a.obj"] = .error () ∧
      traverseEntries [DirEntry.dir [DirEntry.dirUnreadable],
          DirEntry.file "a.obj"] = .error () := by
  constructor
  · simp [traverseEntries]
  · simp [traverseEntries]

/-! ## Kill / exit notification (`src/entity.rs`, EntitySystem::start)

After traversal, the system loops on `msg_queue.recv()`.  `EntityMsg` has a
single variant `Kill`; `recv` yields the queued messages in order and
`none` once the channel closes.  On `Some(Kill)` or `None` the loop sends
`RuntimeMsg::SystemExit(self.uid)` to the runtime address and breaks.  The
`SystemUID` (a random `u16` in the source) is modelled as a `Nat`. -/

inductive EntityMsg where
  | kill

inductive RuntimeMsg where
  | systemExit (uid : Nat)
deriving DecidableEq

/-- Main loop of `EntitySystem::start`, run over the inbox contents (the
messages that will be received before the channel closes).  Returns the
messages sent to the runtime and the suffix of the inbox the loop never
processed. -/
def startLoop (uid : Nat) (inbox : List EntityMsg) :
    List RuntimeMsg × List EntityMsg :=
  match inbox with
  | [] => ([.systemExit uid], [])
  | .kill :: rest => ([.systemExit uid], rest)

/-- C6: whatever the inbox holds, the loop sends exactly one exit
notification, carrying the system's own uid, and consumes at most the one
`Kill` message — everything after it is left unprocessed. -/
theorem kill_sends_exactly_one_exit (uid : Nat) (inbox : List EntityMsg) :
    (startLoop uid inbox).1 = [RuntimeMsg.systemExit uid] ∧
      (startLoop uid inbox).2 = inbox.drop 1 := by
  cases inbox with
  | nil => exact ⟨rfl, rfl⟩
  | cons m rest =>
    cases m
    exact ⟨rfl, rfl⟩

end Demo
